import Mathlib

/-!
# Verification of the `pdf-rs` resource, font and assembly layer

A shallow embedding of the core algorithms of the `pdf-rs` PDF-construction
library, together with theorems settling the specification's claims about
them.  Rust's ordered `lopdf::Dictionary` (a linked hash map) is modelled as
an association list whose `set` replaces an existing key in place and
otherwise appends; `lopdf::ObjectId` (a `(u32, u16)` pair) is modelled as
`Nat × Nat`.  The floating-point width scaling
`(w as f64 * (1000.0 / upem as f64)) as i64` is embedded with IEEE-754
double semantics over exact integers (`scaleWidthF64`): each of the two
operations is rounded to the nearest 53-bit significand (ties to even), and
the cast truncates toward zero.
-/

namespace PdfRs

/-- `lopdf::ObjectId`: an object number / generation number pair. -/
abbrev ObjectId := Nat × Nat

variable {κ : Type} [DecidableEq κ]

/-- Lookup in an ordered dictionary (`lopdf::Dictionary::get`):
the value at the first matching key, if any. -/
def dictGet (k : κ) : List (κ × α) → Option α
  | [] => none
  | (k', v) :: t => if k = k' then some v else dictGet k t

/-- `lopdf::Dictionary::set`: replace the value at an existing key in place,
otherwise append a new entry at the end (insertion order is preserved). -/
def dictSet (k : κ) (v : α) : List (κ × α) → List (κ × α)
  | [] => [(k, v)]
  | (k', v') :: t => if k = k' then (k, v) :: t else (k', v') :: dictSet k v t

/-! ### Injectivity of the decimal rendering used by `format!("R{}", n)` -/

/-- Decimal value of a digit list (inverse of `Nat.toDigits 10`). -/
def evalDigits (l : List Char) : Nat := l.foldl (fun a c => 10 * a + (c.toNat - 48)) 0

/-! ### The resource registry (`src/types/pdf_resources.rs`) -/

/-- `Embedded<T>`: a resource together with the object identifier allocated
for it by `embed`. -/
structure Embedded (T : Type) where
  object : T
  object_id : ObjectId
deriving DecidableEq

/-- `Registered<T>`: an embedded resource plus the per-page dense name index
allocated by `register`. -/
structure Registered (T : Type) where
  embedded : Embedded T
  name_index : Nat
deriving DecidableEq

/-- A value stored in a slot of a page resource dictionary: either the
category sub-dictionary (resource name to object reference, the reference
modelled by its object identifier) or some other, non-dictionary object. -/
inductive ResObj where
  | dict : List (String × ObjectId) → ResObj
  | nonDict : ResObj
deriving DecidableEq

/-- A page resource dictionary: category key to slot value. -/
abbrev Resources := List (String × ResObj)

/-- The resource name `format!("R{}", name_index)`. -/
def rName (n : Nat) : String := "R" ++ Nat.repr n

/-- `register` (src/types/pdf_resources.rs): look up the category slot
`T::KEY`; if it is a dictionary, allocate name `R<len>` and insert the
object reference; if the slot is missing (`Err(DictKey)`), create a fresh
sub-dictionary first; any other slot shape panics (modelled as `none`). -/
def register (key : String) (resource : Embedded T) (resources : Resources) :
    Option (Registered T × Resources) :=
  match dictGet key resources with
  | some (.dict d) =>
      let n := d.length
      some (⟨resource, n⟩,
        dictSet key (.dict (dictSet (rName n) resource.object_id d)) resources)
  | none =>
      let d : List (String × ObjectId) := []
      let n := d.length
      some (⟨resource, n⟩,
        dictSet key (.dict (dictSet (rName n) resource.object_id d)) resources)
  | some .nonDict => none

/-- Two successive `register` calls with the same embedded resource,
returning both name indices and the final dictionary. -/
def registerTwice (key : String) (resource : Embedded T) (resources : Resources) :
    Option (Nat × Nat × Resources) :=
  (register key resource resources).bind fun p =>
    (register key resource p.2).map fun q => (p.1.name_index, q.1.name_index, q.2)

/-- A sequence of `register` calls, one per embedded resource, returning the
allocated name indices in order. -/
def registerAll (key : String) : List (Embedded T) → Resources → Option (List Nat × Resources)
  | [], resources => some ([], resources)
  | e :: t, resources =>
      (register key e resources).bind fun p =>
        (registerAll key t p.2).map fun q => (p.1.name_index :: q.1, q.2)

/-! ### Fonts (`src/types/plugins/graphics/two_dimensional/font.rs`,
`src/types/pdf_document.rs`, `src/utils.rs`) -/

/-- The 14 standard built-in PDF fonts. -/
inductive BuiltinFont where
  | timesRoman | timesBold | timesItalic | timesBoldItalic
  | helvetica | helveticaBold | helveticaOblique | helveticaBoldOblique
  | courier | courierOblique | courierBold | courierBoldOblique
  | symbol | zapfDingbats
deriving DecidableEq

/-- `Into<&'static str> for BuiltinFont`: the standard PostScript name. -/
def builtinFontName : BuiltinFont → String
  | .timesRoman => "Times-Roman"
  | .timesBold => "Times-Bold"
  | .timesItalic => "Times-Italic"
  | .timesBoldItalic => "Times-BoldItalic"
  | .helvetica => "Helvetica"
  | .helveticaBold => "Helvetica-Bold"
  | .helveticaOblique => "Helvetica-Oblique"
  | .helveticaBoldOblique => "Helvetica-BoldOblique"
  | .courier => "Courier"
  | .courierOblique => "Courier-Oblique"
  | .courierBold => "Courier-Bold"
  | .courierBoldOblique => "Courier-BoldOblique"
  | .symbol => "Symbol"
  | .zapfDingbats => "ZapfDingbats"

/-- `ExternalFont`: raw outline-font bytes plus the vertical-writing flag. -/
structure ExternalFont where
  font_bytes : List Nat
  vertical_writing : Bool
deriving DecidableEq

/-- `Font`: builtin or external. -/
inductive Font where
  | builtinFont : BuiltinFont → Font
  | externalFont : ExternalFont → Font
deriving DecidableEq

/-- `IndirectFontRef`: the logical (PostScript / face) name of a font. -/
structure IndirectFontRef where
  name : String
deriving DecidableEq

/-- `DirectFontRef`: allocated object identifier plus the font data. -/
structure DirectFontRef where
  inner_obj : ObjectId
  data : Font
deriving DecidableEq

/-- Modelled from the spec: `FontList`, the document-wide font table, is not
under `src/` (only its callers are).  Per §3/§4.4 it is a map
`name -> (object identifier, font data)` keyed by the logical font
identifier; modelled as an association list with map-insert semantics. -/
abbrev FontList := List (String × DirectFontRef)

/-- Modelled from the spec: `FontList::get_font`, lookup by logical name. -/
def getFont (fonts : FontList) (fontRef : IndirectFontRef) : Option DirectFontRef :=
  dictGet fontRef.name fonts

/-- Modelled from the spec: `FontList::add_font`, insertion keyed by name. -/
def addFont (fonts : FontList) (fontRef : IndirectFontRef) (direct : DirectFontRef) :
    FontList :=
  dictSet fontRef.name direct fonts

/-- The slice of `PdfDocument` state that `add_builtin_font` touches: the
font table and the inner `lopdf` document's object-id allocator. -/
structure PdfDocumentState where
  fonts : FontList
  max_id : Nat
deriving DecidableEq

/-- `lopdf::Document::new_object_id`: bump the allocator. -/
def newObjectId (doc : PdfDocumentState) : ObjectId × PdfDocumentState :=
  ((doc.max_id + 1, 0), { doc with max_id := doc.max_id + 1 })

/-- `PdfDocument::add_builtin_font` (src/types/pdf_document.rs): look the
standard PostScript name up in the font table; on a hit return the existing
reference, otherwise allocate an object identifier and insert. -/
def addBuiltinFont (doc : PdfDocumentState) (builtin_font : BuiltinFont) :
    IndirectFontRef × PdfDocumentState :=
  let font_ref : IndirectFontRef := ⟨builtinFontName builtin_font⟩
  match getFont doc.fonts font_ref with
  | some _ => (font_ref, doc)
  | none =>
      let (oid, doc') := newObjectId doc
      let direct_ref : DirectFontRef := ⟨oid, .builtinFont builtin_font⟩
      (font_ref, { doc' with fonts := addFont doc'.fonts font_ref direct_ref })

/-- `Pt`: the point unit (an `f64` newtype, modelled over `ℚ`). -/
structure Pt where
  val : ℚ
deriving DecidableEq

/-- `measure_text` (src/utils.rs): unless the registered font is an
`ExternalFont`, return `(Pt(0.0), Pt(0.0))` immediately; the external branch
delegates to the font-parser collaborator (`rusttype` layout), modelled here
as the `externalLayout` parameter. -/
def measureText (externalLayout : ExternalFont → String → ℚ → ℚ × ℚ)
    (text : String) (font : Registered Font) (font_size : ℚ) : Pt × Pt :=
  match font.embedded.object with
  | .externalFont face_direct_ref =>
      let wh := externalLayout face_direct_ref text font_size
      (⟨wh.1⟩, ⟨wh.2⟩)
  | .builtinFont _ => (⟨0⟩, ⟨0⟩)

/-! ### The font-embedding glyph scan (`ExternalFont::into_with_document`) -/

/-- Per-glyph data delivered by the font-parser collaborator
(`glyph.standalone().get_data()`): the horizontal advance width and the
optional vertical extents `(min.y, max.y)`. -/
structure GlyphMetrics where
  advance_width : Nat
  extents : Option (Int × Int)
deriving DecidableEq

/-- The font-parser collaborator interface (`rusttype`) as used by
`into_with_document`: glyph id by code point, per-glyph metrics by glyph
id, and the unscaled vertical metrics. -/
structure FontFace where
  glyphIdOf : Nat → Nat
  glyphDataOf : Nat → Option GlyphMetrics
  descent : Int
  units_per_em : Nat

/-- `BTreeMap::insert` on a list sorted by key: keep the order, replace an
existing key. -/
def mapInsert (k : Nat) (v : α) : List (Nat × α) → List (Nat × α)
  | [] => [(k, v)]
  | (k', v') :: t =>
      if k < k' then (k, v) :: (k', v') :: t
      else if k = k' then (k, v) :: t
      else (k', v') :: mapInsert k v t

/-- The glyph-scan loop state: `max_height`, `total_width` and the
`cmap : BTreeMap<GlyphId, (unicode, width, height)>`. -/
structure ScanState where
  max_height : Int
  total_width : Nat
  cmap : List (Nat × (Nat × Nat × Int))
deriving DecidableEq

/-- One iteration of the `for unicode in 0x0000..0xffff` loop: resolve the
glyph for the code point, skip glyph id 0, and record
`(unicode, advance width, extent-derived height)` when the parser has
standalone data for the glyph. -/
def scanStep (f : FontFace) (unicode : Nat) (st : ScanState) : ScanState :=
  let gid := f.glyphIdOf unicode
  if gid = 0 then st
  else
    match f.glyphDataOf gid with
    | some glyph_metrics =>
        let w := glyph_metrics.advance_width
        let h : Int :=
          match glyph_metrics.extents with
          | some e => e.2 - e.1 - f.descent
          | none => 1000
        { max_height := if h > st.max_height then h else st.max_height
          total_width := st.total_width + w
          cmap := mapInsert gid (unicode, w, h) st.cmap }
    | none => st

/-- The scan loop: `count` further iterations starting at code point `u`. -/
def scanGlyphs (f : FontFace) : Nat → Nat → ScanState → ScanState
  | 0, _, st => st
  | count + 1, u, st => scanGlyphs f count (u + 1) (scanStep f u st)

/-- The glyph map built by `into_with_document`: glyph id 0 pre-seeded with
`(0, 1000, 1000)`, then the loop `for unicode in 0x0000..0xffff` (which in
Rust iterates the half-open range, i.e. code points `0 … 0xfffe`). -/
def buildGlyphCmap (f : FontFace) : ScanState :=
  scanGlyphs f 0xffff 0 ⟨0, 0, [(0, (0, 1000, 1000))]⟩

/-! ### The width table (`W` array) encoding -/

/-- An element of the `W` array: either a run-start glyph id or the array
of widths for one run. -/
inductive WidthsObj where
  | int : Int → WidthsObj
  | arr : List Int → WidthsObj
deriving DecidableEq

/-- Round-to-nearest, ties-to-even of the fraction `num / den` to an
integer (the IEEE-754 default rounding of an exact quotient). -/
def roundNearestEven (num den : Nat) : Nat :=
  let q := num / den
  let r := num % den
  if 2 * r < den then q
  else if den < 2 * r then q + 1
  else if q % 2 = 0 then q else q + 1

/-- Fuel-based floor of `log2` (0 for inputs ≤ 1); the fuel argument makes
it structurally recursive so concrete instances reduce in the kernel. -/
def natLog2Aux : Nat → Nat → Nat
  | 0, _ => 0
  | fuel + 1, n => if n ≤ 1 then 0 else natLog2Aux fuel (n / 2) + 1

/-- `⌊log2 n⌋` for `n ≥ 1` (and 0 at 0). -/
def natLog2F (n : Nat) : Nat := natLog2Aux n n

/-- The binary exponent of the positive rational `num / den`: the unique
`e` with `2^e ≤ num / den < 2^(e+1)`.  `2^(ln-ld) ≤ num/den` is decided by
the equivalent natural-number comparison `den * 2^ln ≤ num * 2^ld`. -/
def f64Exponent (num den : Nat) : Int :=
  let ln := natLog2F num
  let ld := natLog2F den
  let e0 : Int := (ln : Int) - (ld : Int)
  if den * 2 ^ ln ≤ num * 2 ^ ld then e0 else e0 - 1

/-- The 53-bit significand of the IEEE-754 double nearest to `num / den`
(whose binary exponent is `e`): round-to-nearest-even of
`(num / den) * 2^(52 - e)`, a value in `[2^52, 2^53]`.  The double's value
is `f64Mantissa num den e * 2^(e - 52)`. -/
def f64Mantissa (num den : Nat) (e : Int) : Nat :=
  if 0 ≤ 52 - e then roundNearestEven (num * 2 ^ (52 - e).toNat) den
  else roundNearestEven num (den * 2 ^ (e - 52).toNat)

/-- Width scaling `(w as f64 * (1000.0 / units_per_em as f64)) as i64`
(font.rs:321,325,331), embedded with IEEE-754 double semantics: the
division `1000.0 / upem` is the correctly rounded (nearest, ties to even)
double `m1 * 2^(e1 - 52)`; the product `w * m1 * 2^(e1 - 52)` is rounded
the same way to `m2 * 2^(e2 - 52)`; the `as i64` cast truncates toward
zero (a floor, as every value here is non-negative).  `w` (a `u32`) is
exactly representable, so only the two operations round.  Exponents stay
in the normal range for `upem ≥ 1` (the case `upem = 0`, where the Rust
computation passes through `inf`/`NaN`, is excluded by hypothesis where
this definition is used). -/
def scaleWidthF64 (units_per_em w : Nat) : Int :=
  if w = 0 then 0
  else
    let e1 := f64Exponent 1000 units_per_em
    let m1 := f64Mantissa 1000 units_per_em e1
    let t := w * m1
    if t = 0 then 0
    else
      let e2 : Int := (natLog2F t : Int) - (52 - e1)
      let m2 :=
        if natLog2F t ≤ 52 then t * 2 ^ (52 - natLog2F t)
        else roundNearestEven t (2 ^ (natLog2F t - 52))
      if 0 ≤ e2 - 52 then Int.ofNat (m2 * 2 ^ (e2 - 52).toNat)
      else Int.ofNat (m2 / 2 ^ (52 - e2).toNat)

/-- Font exhibiting the rounding behaviour of the width scaling: a single
glyph (id 7, advance width 195) and `units_per_em = 3`. -/
def c5Face : FontFace :=
  ⟨fun u => if u = 65 then 7 else 0,
   fun g => if g = 7 then some ⟨195, none⟩ else none, 0, 3⟩

/-- A well-behaved font for exercising the width-table theorem:
one glyph (id 1, advance width 195) and `units_per_em = 1000`. -/
def c5WitnessFace : FontFace :=
  ⟨fun u => if u = 65 then 1 else 0,
   fun g => if g = 1 then some ⟨195, none⟩ else none, 0, 1000⟩

/-- The run-coalescing loop over the `(gid, width)` pairs: a run continues
while `gid == current_high_gid`, otherwise the pending
`[startGID, [widths…]]` pair is flushed and a new run starts at `gid`. -/
def encodeWidthsGo (scale : Nat → Int) :
    List (Nat × Nat) → List WidthsObj → Nat → Nat → List Int → List WidthsObj
  | [], widths_list, current_low_gid, _, current_width_vec =>
      widths_list ++ [.int (Int.ofNat current_low_gid), .arr current_width_vec]
  | (gid, w) :: rest, widths_list, current_low_gid, current_high_gid, current_width_vec =>
      if gid = current_high_gid then
        encodeWidthsGo scale rest widths_list current_low_gid (current_high_gid + 1)
          (current_width_vec ++ [scale w])
      else
        encodeWidthsGo scale rest
          (widths_list ++ [.int (Int.ofNat current_low_gid), .arr current_width_vec])
          gid (gid + 1) [scale w]

/-- The full `W`-array encoding, starting from `current_low_gid = 0`,
`current_high_gid = 0` and an empty pending run. -/
def encodeWidths (scale : Nat → Int) (widths : List (Nat × Nat)) : List WidthsObj :=
  encodeWidthsGo scale widths [] 0 0 []

/-- The `(gid, width)` list fed into the width encoder: the glyph map's
entries in ascending glyph-id order, each with its advance width. -/
def widthsOf (f : FontFace) : List (Nat × Nat) :=
  (buildGlyphCmap f).cmap.map fun p => (p.1, p.2.2.1)

/-- The glyph-id/width assignment denoted by one `[startGID [w0 w1 …]]`
run: consecutive glyph ids starting at the run start. -/
def runEntries : Nat → List Int → List (Nat × Int)
  | _, [] => []
  | s, w :: t => (s, w) :: runEntries (s + 1) t

/-- The flat `W`-array form of a run list. -/
def runsFlatten (rs : List (Nat × List Int)) : List WidthsObj :=
  rs.flatMap fun r => [.int (Int.ofNat r.1), .arr r.2]

/-! ### ToUnicode CMap block partitioning -/

/-- The block-partition loop over the glyph map's `(gid, unicode)` pairs:
a block boundary is forced when the glyph id's high byte differs from the
current block's, or when the current block already holds 100 entries. -/
def partitionGo :
    List (Nat × Nat) → List (List (Nat × Nat)) → List (Nat × Nat) → Nat →
      List (List (Nat × Nat))
  | [], all_cmap_blocks, current_cmap_block, _ =>
      all_cmap_blocks ++ [current_cmap_block]
  | (glyph_id, unicode) :: rest, all_cmap_blocks, current_cmap_block, cur_first_bit =>
      if glyph_id >>> 8 ≠ cur_first_bit ∨ 100 ≤ current_cmap_block.length then
        partitionGo rest (all_cmap_blocks ++ [current_cmap_block])
          [(glyph_id, unicode)] (glyph_id >>> 8)
      else
        partitionGo rest all_cmap_blocks
          (current_cmap_block ++ [(glyph_id, unicode)]) cur_first_bit

/-- The CMap block partition of a glyph map (its `(gid, unicode)` pairs in
ascending glyph-id order), starting from `cur_first_bit = 0` and an empty
current block. -/
def cmapBlocks (l : List (Nat × Nat)) : List (List (Nat × Nat)) :=
  partitionGo l [] [] 0

/-- `{:04x}` rendering of a 16-bit value (`Nat.digitChar` yields the
lowercase hex digits). -/
def toHex4 (n : Nat) : String :=
  String.mk [Nat.digitChar (n / 4096 % 16), Nat.digitChar (n / 256 % 16),
    Nat.digitChar (n / 16 % 16), Nat.digitChar (n % 16)]

/-- `generate_cid_to_unicode_map`: the fixed preamble (the template file
applied to the face name, modelled as the `beg` parameter), one
`<N> beginbfchar … endbfchar` section per block, and the fixed postamble. -/
def generateCidToUnicodeMap (beg : String → String) (postamble : String)
    (face_name : String) (all_cmap_blocks : List (List (Nat × Nat))) : String :=
  let blocks := all_cmap_blocks.filter fun b => !b.isEmpty || b.length < 100
  let body := blocks.foldl
    (fun acc cmap_block =>
      acc ++ toString cmap_block.length ++ " beginbfchar\r\n" ++
        cmap_block.foldl
          (fun acc2 p => acc2 ++ "<" ++ toHex4 p.1 ++ "> <" ++ toHex4 p.2 ++ ">\n") "" ++
        "endbfchar\r\n")
    (beg face_name)
  body ++ postamble

/-- Concrete font used to exhibit the off-by-one in the scan range: only
code point 0xFFFF resolves to a (data-carrying) glyph. -/
def c2Face : FontFace :=
  ⟨fun u => if u = 0xffff then 1 else 0,
   fun g => if g = 1 then some ⟨10, none⟩ else none, 0, 1000⟩

/-! ### Document assembly (`PdfDocument::save`) and page streams
(`PdfPage::collect_resources_and_streams`) -/

/-- A `lopdf::Object` as used by the assembly code. -/
inductive LoObject where
  | name : String → LoObject
  | string : String → LoObject
  | integer : Int → LoObject
  | reference : ObjectId → LoObject
  | array : List LoObject → LoObject
  | dictionary : List (String × LoObject) → LoObject

/-- The catalog dictionary built by `save` (pdf_document.rs): the fixed
`Type`/`PageLayout`/`PageMode`/`Pages` entries, then `OutputIntents` when an
ICC profile is embedded, `Metadata` when XMP metadata is present, and the
`OCProperties` entry. -/
def buildCatalog (pages_id : ObjectId) (output_intents : LoObject)
    (icc_profile_id : Option ObjectId) (xmp_metadata_id : Option ObjectId)
    (oc_properties : LoObject) : List (String × LoObject) :=
  let catalog : List (String × LoObject) :=
    [("Type", .name "Catalog"), ("PageLayout", .name "OneColumn"),
     ("PageMode", .name "Use0"), ("Pages", .reference pages_id)]
  let catalog :=
    match icc_profile_id with
    | some _ => dictSet "OutputIntents" (.array [output_intents]) catalog
    | none => catalog
  let catalog :=
    match xmp_metadata_id with
    | some metadata_id => dictSet "Metadata" (.reference metadata_id) catalog
    | none => catalog
  dictSet "OCProperties" oc_properties catalog

/-- The trailer updates performed by `save`: `Root`, `Info` and
`ID = [document identifier, instance identifier]` set on the inner
document's trailer. -/
def buildTrailer (trailer : List (String × LoObject))
    (catalog_id document_info_id : ObjectId)
    (document_id instance_id : String) : List (String × LoObject) :=
  dictSet "ID" (.array [.string document_id, .string instance_id])
    (dictSet "Info" (.reference document_info_id)
      (dictSet "Root" (.reference catalog_id) trailer))

/-- A content-stream operation (`lopdf::content::Operation`). -/
structure Operation where
  operator : String
  operands : List LoObject

/-- The per-layer wrapping in `collect_resources_and_streams`
(pdf_page.rs): insert `q` at index 0, insert `/OC /<name> BDC` at index 0,
push `Q`, push `EMC`. -/
def wrapLayerOperations (ocg_name : String) (operations : List Operation) :
    List Operation :=
  let operations := Operation.mk "q" [] :: operations
  let operations :=
    Operation.mk "BDC" [.name "OC", .name ocg_name] :: operations
  operations ++ [Operation.mk "Q" [], Operation.mk "EMC" []]

/-- The per-page stream collection: each layer's operations wrapped with
its OCG's name (layers paired with the page's OCG references in order). -/
def collectLayerStreams (ocg_names : List String)
    (layers : List (List Operation)) : List (List Operation) :=
  (ocg_names.zip layers).map fun p => wrapLayerOperations p.1 p.2

/-- OCG object-identifier allocation for one page's layers
(`doc.add_object` per layer name, in layer order). -/
def allocOcgsForPage : List String → Nat → List Nat × Nat
  | [], c => ([], c)
  | _ :: t, c =>
      let (ids, c') := allocOcgsForPage t (c + 1)
      (c :: ids, c')

/-- OCG allocation over all pages, in page order. -/
def allocOcgs : List (List String) → Nat → List (List Nat) × Nat
  | [], c => ([], c)
  | names :: rest, c =>
      let (ids, c') := allocOcgsForPage names c
      let (idss, c'') := allocOcgs rest c'
      (ids :: idss, c'')

/-- `flattened_ocg_list`: the page-then-layer flattening of the allocated
OCG references. -/
def flattenedOcgList (idss : List (List Nat)) : List LoObject :=
  idss.flatten.map fun i => .reference (i, 0)

/-- The `OCProperties` entry: declared OCGs, and the `D` configuration
holding the display `Order`, empty `RBGroups`, and the initially-`ON` set —
three views of the same flattened list. -/
def ocPropertiesDict (flattened : List LoObject) : List (String × LoObject) :=
  [("OCGs", .array flattened),
   ("D", .dictionary
      [("Order", .array flattened), ("RBGroups", .array []),
       ("ON", .array flattened)])]

@[simp] theorem dictGet_nil (k : κ) : dictGet k ([] : List (κ × α)) = none := rfl

theorem dictGet_cons (k k' : κ) (v : α) (t : List (κ × α)) :
    dictGet k ((k', v) :: t) = if k = k' then some v else dictGet k t := rfl

theorem dictSet_cons (k k' : κ) (v v' : α) (t : List (κ × α)) :
    dictSet k v ((k', v') :: t) =
      if k = k' then (k, v) :: t else (k', v') :: dictSet k v t := rfl

/-- If the key is not present, `dictSet` appends the entry at the end. -/
theorem dictSet_append_of_not_mem (k : κ) (v : α) (d : List (κ × α))
    (h : ∀ p ∈ d, p.1 ≠ k) : dictSet k v d = d ++ [(k, v)] := by
  induction d with
  | nil => rfl
  | cons p t ih =>
    obtain ⟨k', v'⟩ := p
    have hk : k ≠ k' := fun he => (h (k', v') (List.mem_cons_self _ _)) he.symm
    simp only [dictSet, if_neg hk, List.cons_append]
    rw [ih (fun q hq => h q (List.mem_cons_of_mem _ hq))]

/-- `dictGet` after `dictSet` at the same key finds the new value. -/
theorem dictGet_dictSet_self (k : κ) (v : α) (d : List (κ × α)) :
    dictGet k (dictSet k v d) = some v := by
  induction d with
  | nil => simp [dictSet, dictGet]
  | cons p t ih =>
    obtain ⟨k', v'⟩ := p
    by_cases h : k = k'
    · simp [dictSet, dictGet, h]
    · simp [dictSet, dictGet, h, ih]

/-- `dictGet` after `dictSet` at a different key is unchanged. -/
theorem dictGet_dictSet_ne (k k' : κ) (v : α) (d : List (κ × α))
    (h : k' ≠ k) : dictGet k' (dictSet k v d) = dictGet k' d := by
  induction d with
  | nil => simp [dictSet, dictGet, h]
  | cons p t ih =>
    obtain ⟨k'', v''⟩ := p
    by_cases hk : k = k''
    · subst hk; simp [dictSet, dictGet, h]
    · by_cases hk' : k' = k''
      · simp [dictSet, dictGet, hk, hk']
      · simp [dictSet, dictGet, hk, hk', ih]

theorem digitVal_digitChar : ∀ d : Fin 10, (Nat.digitChar d.val).toNat - 48 = d.val := by decide

theorem toDigitsCore_eq_append :
    ∀ (f n : Nat) (ds : List Char),
      Nat.toDigitsCore 10 f n ds = Nat.toDigitsCore 10 f n [] ++ ds := by
  intro f
  induction f with
  | zero => intro n ds; simp [Nat.toDigitsCore]
  | succ f ih =>
    intro n ds
    by_cases h : n / 10 = 0
    · simp [Nat.toDigitsCore, h]
    · simp only [Nat.toDigitsCore, if_neg h]
      rw [ih (n / 10) (Nat.digitChar (n % 10) :: ds),
        ih (n / 10) [Nat.digitChar (n % 10)], List.append_assoc]
      rfl

theorem evalDigits_append_singleton (l : List Char) (c : Char) :
    evalDigits (l ++ [c]) = 10 * evalDigits l + (c.toNat - 48) := by
  simp [evalDigits, List.foldl_append]

theorem evalDigits_toDigitsCore :
    ∀ f n : Nat, n < f → evalDigits (Nat.toDigitsCore 10 f n []) = n := by
  intro f
  induction f with
  | zero => intro n h; omega
  | succ f ih =>
    intro n hn
    have hd : (Nat.digitChar (n % 10)).toNat - 48 = n % 10 :=
      digitVal_digitChar ⟨n % 10, Nat.mod_lt _ (by omega)⟩
    by_cases h : n / 10 = 0
    · have hlt : n < 10 := by omega
      simp only [Nat.toDigitsCore, if_pos h]
      simpa [evalDigits, hd] using Nat.mod_eq_of_lt hlt
    · have hpos : 0 < n := by
        rcases Nat.eq_zero_or_pos n with h0 | h0
        · exact absurd (by simp [h0]) h
        · exact h0
      have hdivlt : n / 10 < n := Nat.div_lt_self hpos (by omega)
      simp only [Nat.toDigitsCore, if_neg h]
      rw [toDigitsCore_eq_append, evalDigits_append_singleton,
        ih (n / 10) (by omega), hd]
      omega

theorem natRepr_injective : Function.Injective Nat.repr := by
  intro m n h
  have hdig : Nat.toDigits 10 m = Nat.toDigits 10 n := congrArg String.data h
  have hm := evalDigits_toDigitsCore (m + 1) m (Nat.lt_succ_self m)
  have hn := evalDigits_toDigitsCore (n + 1) n (Nat.lt_succ_self n)
  rw [show Nat.toDigitsCore 10 (m + 1) m [] = Nat.toDigits 10 m from rfl] at hm
  rw [show Nat.toDigitsCore 10 (n + 1) n [] = Nat.toDigits 10 n from rfl] at hn
  rw [← hm, ← hn, hdig]

theorem rName_injective : Function.Injective rName := by
  intro m n h
  apply natRepr_injective
  have hdata := congrArg String.data h
  simp only [rName, String.data_append] at hdata
  cases hr : (Nat.repr m).data with
  | nil =>
      apply String.ext
      rw [hr] at hdata
      simpa [hr] using hdata
  | cons c t =>
      apply String.ext
      rw [hr] at hdata
      simpa [hr] using hdata

theorem dictSet_dictSet_self (k : κ) (v w : α) (d : List (κ × α)) :
    dictSet k v (dictSet k w d) = dictSet k v d := by
  induction d with
  | nil => simp [dictSet]
  | cons p t ih =>
    obtain ⟨k', v'⟩ := p
    by_cases h : k = k'
    · simp [dictSet, h]
    · simp [dictSet, h, ih]

/-- Freshness of the next dense name: `R<n>` is not among `R0 … R<n-1>`. -/
theorem rName_not_mem_range (n m : Nat) (hm : n ≤ m) :
    rName m ∉ (List.range n).map rName := by
  intro hmem
  obtain ⟨i, hi, hEq⟩ := List.mem_map.mp hmem
  have hiLt : i < n := List.mem_range.mp hi
  have : i = m := rName_injective hEq
  omega

/-- Canonical category slots: after `k` registrations from a canonically
named sub-dictionary of size `n`, the indices handed out are
`n, n+1, …, n+k-1` and the slot keys are `R0 … R(n+k-1)`. -/
theorem registerAll_canonical (key : String) :
    ∀ (es : List (Embedded T)) (resources : Resources) (d : List (String × ObjectId)),
      dictGet key resources = some (.dict d) →
      d.map Prod.fst = (List.range d.length).map rName →
      ∃ (res' : Resources) (d' : List (String × ObjectId)),
        registerAll key es resources = some (List.range' d.length es.length, res') ∧
        dictGet key res' = some (.dict d') ∧
        d'.map Prod.fst = (List.range d'.length).map rName ∧
        d'.length = d.length + es.length := by
  intro es
  induction es with
  | nil =>
      intro resources d hget hkeys
      exact ⟨resources, d, by simp [registerAll], hget, hkeys, by simp⟩
  | cons e t ih =>
      intro resources d hget hkeys
      have hfresh : ∀ p ∈ d, p.1 ≠ rName d.length := by
        intro p hp hEq
        have : p.1 ∈ d.map Prod.fst := List.mem_map.mpr ⟨p, hp, rfl⟩
        rw [hkeys] at this
        exact rName_not_mem_range d.length d.length le_rfl (hEq ▸ this)
      have hset : dictSet (rName d.length) e.object_id d =
          d ++ [(rName d.length, e.object_id)] :=
        dictSet_append_of_not_mem _ _ _ hfresh
      set d1 := d ++ [(rName d.length, e.object_id)] with hd1
      have hkeys1 : d1.map Prod.fst = (List.range d1.length).map rName := by
        simp only [hd1, List.map_append, List.length_append, List.length_singleton]
        rw [hkeys, List.range_succ]
        simp
      have hlen1 : d1.length = d.length + 1 := by simp [hd1]
      set res1 := dictSet key (.dict d1) resources with hres1
      have hget1 : dictGet key res1 = some (.dict d1) := dictGet_dictSet_self _ _ _
      obtain ⟨res', d', hrall, hget', hkeys', hlen'⟩ := ih res1 d1 hget1 hkeys1
      refine ⟨res', d', ?_, hget', hkeys', by simp only [List.length_cons]; omega⟩
      rw [hres1] at hrall
      simp only [registerAll, register, hget, hset, Option.bind_eq_bind, Option.some_bind]
      rw [hrall, hlen1]
      simp [List.length_cons, List.range'_succ]

/-- C1 counterexample: registering the same `Embedded<T>` twice into an
empty page resource dictionary returns name index 0 then name index 1 (the
names `R0` and `R1` differ), adds a duplicate entry for the same object
identifier, and grows the category sub-dictionary from one entry to two —
refuting idempotence as claimed. -/
theorem c1_register_idempotent_counterexample :
    registerTwice "Font" (⟨(), (1, 0)⟩ : Embedded Unit) [] =
      some (0, 1, [("Font", ResObj.dict [("R0", (1, 0)), ("R1", (1, 0))])]) ∧
    (0 : Nat) ≠ 1 ∧
    [("R0", ((1 : Nat), (0 : Nat))), ("R1", (1, 0))].length ≠
      [("R0", ((1 : Nat), (0 : Nat)))].length := by
  decide

/-- C1 (amended): `register` is not idempotent per object identifier.
Calling `register(d, e)` twice in succession returns name `R<n>` on the
first call and `R<n+1>` on the second (where `n` is the category
sub-dictionary's size before the first call), appends a fresh entry for the
same object identifier on each call, and grows the sub-dictionary by one
entry per call. -/
theorem c1_register_not_idempotent {T : Type} (key : String) (e : Embedded T)
    (resources : Resources) (d : List (String × ObjectId))
    (hslot : dictGet key resources = some (.dict d))
    (hfresh : ∀ p ∈ d, p.1 ≠ rName d.length ∧ p.1 ≠ rName (d.length + 1)) :
    registerTwice key e resources =
      some (d.length, d.length + 1,
        dictSet key (.dict (d ++ [(rName d.length, e.object_id),
          (rName (d.length + 1), e.object_id)])) resources) := by
  have hset1 : dictSet (rName d.length) e.object_id d =
      d ++ [(rName d.length, e.object_id)] :=
    dictSet_append_of_not_mem _ _ _ (fun p hp => (hfresh p hp).1)
  set d1 := d ++ [(rName d.length, e.object_id)] with hd1
  have hlen1 : d1.length = d.length + 1 := by simp [hd1]
  have hfresh1 : ∀ p ∈ d1, p.1 ≠ rName d1.length := by
    intro p hp
    rw [hlen1]
    rcases List.mem_append.mp hp with h | h
    · exact (hfresh p h).2
    · have hp1 : p.1 = rName d.length := by
        simp only [List.mem_singleton] at h
        rw [h]
      rw [hp1]
      intro hcontra
      have : d.length = d.length + 1 := rName_injective hcontra
      omega
  have hset2 : dictSet (rName d1.length) e.object_id d1 =
      d1 ++ [(rName d1.length, e.object_id)] :=
    dictSet_append_of_not_mem _ _ _ hfresh1
  have hget1 : dictGet key (dictSet key (.dict d1) resources) = some (.dict d1) :=
    dictGet_dictSet_self _ _ _
  simp only [registerTwice, register, hslot, hset1, hget1, hset2,
    Option.bind_eq_bind, Option.some_bind, Option.map_some']
  rw [dictSet_dictSet_self, hlen1]
  simp [hd1, List.append_assoc]

/-- C1 amended-claim witness: the two registrations into an initially empty
`Font` sub-dictionary return indices 0 and 1 and leave entries `R0`, `R1`. -/
theorem c1_register_not_idempotent_witness :
    registerTwice "Font" (⟨(), (1, 0)⟩ : Embedded Unit) [("Font", ResObj.dict [])] =
      some (0, 1, [("Font", ResObj.dict [("R0", (1, 0)), ("R1", (1, 0))])]) := by
  have h := c1_register_not_idempotent "Font" (⟨(), (1, 0)⟩ : Embedded Unit)
    [("Font", ResObj.dict [])] [] (by decide) (by simp)
  simpa using h

/-- C7 (confirmed): starting from a category slot whose names are the dense
names `R0 … R(n-1)`, registering a sequence of embedded resources of that
category yields the monotonically increasing dense indices
`n, n+1, …` (names `R<n>, R<n+1>, …`), and a registration under any other
category key leaves this category's slot untouched (independence between
categories; pages have separate dictionaries by construction). -/
theorem c7_register_dense_names {T U : Type} (key : String) (es : List (Embedded T))
    (resources : Resources) (d : List (String × ObjectId))
    (hslot : dictGet key resources = some (.dict d))
    (hkeys : d.map Prod.fst = (List.range d.length).map rName) :
    (∃ res', registerAll key es resources = some (List.range' d.length es.length, res')) ∧
    (∀ (key' : String) (e' : Embedded U) (r' : Registered U) (res'' : Resources),
      key' ≠ key → register key' e' resources = some (r', res'') →
      dictGet key res'' = dictGet key resources) := by
  constructor
  · obtain ⟨res', d', h, -, -, -⟩ := registerAll_canonical key es resources d hslot hkeys
    exact ⟨res', h⟩
  · intro key' e' r' res'' hne hreg
    cases hk : dictGet key' resources with
    | none =>
        simp only [register, hk] at hreg
        obtain ⟨-, hres⟩ := Prod.mk.injEq .. ▸ Option.some.injEq .. ▸ hreg
        rw [← hres]
        exact dictGet_dictSet_ne _ _ _ _ hne.symm
    | some ro =>
        cases ro with
        | dict d'' =>
            simp only [register, hk] at hreg
            obtain ⟨-, hres⟩ := Prod.mk.injEq .. ▸ Option.some.injEq .. ▸ hreg
            rw [← hres]
            exact dictGet_dictSet_ne _ _ _ _ hne.symm
        | nonDict => simp [register, hk] at hreg

/-- C7 witness: three registrations into an empty `XObject` sub-dictionary
yield indices `[0, 1, 2]`, and a `Font`-category registration does not
disturb the `XObject` slot. -/
theorem c7_register_dense_names_witness :
    (∃ res', registerAll "XObject"
        [(⟨(), (5, 0)⟩ : Embedded Unit), ⟨(), (6, 0)⟩, ⟨(), (7, 0)⟩]
        [("XObject", ResObj.dict [])] = some ([0, 1, 2], res')) ∧
    (∀ (r' : Registered Unit) (res'' : Resources),
      register "Font" (⟨(), (9, 0)⟩ : Embedded Unit) [("XObject", ResObj.dict [])] =
        some (r', res'') →
      dictGet "XObject" res'' = dictGet "XObject" [("XObject", ResObj.dict [])]) := by
  have h := c7_register_dense_names (U := Unit) "XObject"
    [(⟨(), (5, 0)⟩ : Embedded Unit), ⟨(), (6, 0)⟩, ⟨(), (7, 0)⟩]
    [("XObject", ResObj.dict [])] [] (by decide) (by decide)
  refine ⟨?_, fun r' res'' hreg => h.2 "Font" ⟨(), (9, 0)⟩ r' res'' (by decide) hreg⟩
  obtain ⟨res', hres⟩ := h.1
  exact ⟨res', by simpa using hres⟩

theorem dictGet_eq_none_iff (k : κ) (d : List (κ × α)) :
    dictGet k d = none ↔ ∀ p ∈ d, p.1 ≠ k := by
  induction d with
  | nil => simp
  | cons p t ih =>
    obtain ⟨k', v'⟩ := p
    by_cases h : k = k'
    · subst h; simp [dictGet]
    · simp [dictGet, h, ih, fun hne : k' = k => h hne.symm]
      intro
      exact fun hne => h hne.symm

/-- **C9 (confirmed).** `add_builtin_font` is idempotent per logical name:
for a document whose font table does not yet hold the font's standard
PostScript name, calling it twice returns the same `IndirectFontRef` both
times, the second call leaves the document (font table and object-id
allocator) unchanged, and the table holds exactly one entry for that name. -/
theorem c9_add_builtin_font_idempotent (doc : PdfDocumentState) (f : BuiltinFont)
    (habs : dictGet (builtinFontName f) doc.fonts = none) :
    (addBuiltinFont (addBuiltinFont doc f).2 f).1 = (addBuiltinFont doc f).1 ∧
    (addBuiltinFont (addBuiltinFont doc f).2 f).2 = (addBuiltinFont doc f).2 ∧
    ((addBuiltinFont doc f).2.fonts.countP
      (fun p => p.1 = builtinFontName f)) = 1 := by
  have hset : dictSet (builtinFontName f)
      (⟨(doc.max_id + 1, 0), .builtinFont f⟩ : DirectFontRef) doc.fonts =
      doc.fonts ++ [(builtinFontName f, ⟨(doc.max_id + 1, 0), .builtinFont f⟩)] :=
    dictSet_append_of_not_mem _ _ _ ((dictGet_eq_none_iff _ _).mp habs)
  have h1 : addBuiltinFont doc f =
      (⟨builtinFontName f⟩,
        { fonts := doc.fonts ++ [(builtinFontName f, ⟨(doc.max_id + 1, 0), .builtinFont f⟩)],
          max_id := doc.max_id + 1 }) := by
    simp only [addBuiltinFont, getFont, habs, newObjectId, addFont, hset]
  have hget2 : dictGet (builtinFontName f)
      (doc.fonts ++ [(builtinFontName f, ⟨(doc.max_id + 1, 0), .builtinFont f⟩)]) =
      some ⟨(doc.max_id + 1, 0), .builtinFont f⟩ := by
    rw [← hset]
    exact dictGet_dictSet_self _ _ _
  have h2 : addBuiltinFont (addBuiltinFont doc f).2 f = (addBuiltinFont doc f) := by
    rw [h1]
    simp only [addBuiltinFont, getFont, hget2]
  refine ⟨by rw [h2], by rw [h2], ?_⟩
  rw [h1]
  simp only [List.countP_append]
  have hzero : doc.fonts.countP (fun p => p.1 = builtinFontName f) = 0 := by
    rw [List.countP_eq_zero]
    intro p hp
    simpa using (dictGet_eq_none_iff _ _).mp habs p hp
  simp [hzero]

/-- C9 witness: adding Helvetica twice to an empty document. -/
theorem c9_add_builtin_font_idempotent_witness :
    (addBuiltinFont (addBuiltinFont ⟨[], 0⟩ .helvetica).2 .helvetica).1 =
      (addBuiltinFont ⟨[], 0⟩ .helvetica).1 ∧
    (addBuiltinFont (addBuiltinFont ⟨[], 0⟩ .helvetica).2 .helvetica).2 =
      (addBuiltinFont ⟨[], 0⟩ .helvetica).2 ∧
    ((addBuiltinFont ⟨[], 0⟩ .helvetica).2.fonts.countP
      (fun p => p.1 = builtinFontName .helvetica)) = 1 :=
  c9_add_builtin_font_idempotent ⟨[], 0⟩ .helvetica (by decide)

/-- **C10 (confirmed).** For every `Registered` font whose underlying `Font`
is a `BuiltinFont`, `measure_text` returns `(Pt(0.0), Pt(0.0))` regardless
of the text, the font size, and the external-font measurement collaborator. -/
theorem c10_measure_text_builtin_zero
    (externalLayout : ExternalFont → String → ℚ → ℚ × ℚ)
    (text : String) (b : BuiltinFont) (oid : ObjectId) (idx : Nat)
    (font_size : ℚ) :
    measureText externalLayout text ⟨⟨.builtinFont b, oid⟩, idx⟩ font_size =
      (⟨0⟩, ⟨0⟩) := rfl

theorem mem_keys_mapInsert (k g : Nat) (v : α) (m : List (Nat × α)) :
    g ∈ (mapInsert k v m).map Prod.fst ↔ g = k ∨ g ∈ m.map Prod.fst := by
  induction m with
  | nil => simp [mapInsert]
  | cons p t ih =>
    obtain ⟨k', v'⟩ := p
    by_cases hlt : k < k'
    · simp [mapInsert, hlt]
    · by_cases heq : k = k'
      · subst heq
        simp [mapInsert, hlt]
      · simp [mapInsert, hlt, heq, ih]
        tauto

theorem dictGet_mapInsert_ne (k k' : Nat) (v : α) (m : List (Nat × α))
    (h : k' ≠ k) : dictGet k' (mapInsert k v m) = dictGet k' m := by
  induction m with
  | nil => simp [mapInsert, dictGet, h]
  | cons p t ih =>
    obtain ⟨k'', v''⟩ := p
    by_cases hlt : k < k''
    · simp [mapInsert, hlt, dictGet, h]
    · by_cases heq : k = k''
      · subst heq
        simp [mapInsert, hlt, dictGet, h]
      · by_cases hk' : k' = k''
        · simp [mapInsert, hlt, heq, dictGet, hk']
        · simp [mapInsert, hlt, heq, dictGet, hk', ih]

theorem scanStep_keys (f : FontFace) (u g : Nat) (st : ScanState) :
    g ∈ (scanStep f u st).cmap.map Prod.fst ↔
      g ∈ st.cmap.map Prod.fst ∨
        (f.glyphIdOf u = g ∧ g ≠ 0 ∧ (f.glyphDataOf g).isSome) := by
  by_cases h0 : f.glyphIdOf u = 0
  · simp only [scanStep, h0, if_pos rfl]
    constructor
    · exact Or.inl
    · rintro (h | ⟨hg, hne, -⟩)
      · exact h
      · exact absurd (h0 ▸ hg) (Ne.symm hne)
  · cases hdata : f.glyphDataOf (f.glyphIdOf u) with
    | none =>
        simp only [scanStep, if_neg h0, hdata]
        constructor
        · exact Or.inl
        · rintro (h | ⟨hg, -, hsome⟩)
          · exact h
          · rw [← hg, hdata] at hsome
            simp at hsome
    | some gm =>
        simp only [scanStep, if_neg h0, hdata, mem_keys_mapInsert]
        constructor
        · rintro (hg | h)
          · exact Or.inr ⟨hg.symm, hg ▸ h0, by rw [hg, hdata]; rfl⟩
          · exact Or.inl h
        · rintro (h | ⟨hg, -, -⟩)
          · exact Or.inr h
          · exact Or.inl hg.symm

theorem scanGlyphs_keys (f : FontFace) :
    ∀ (count u : Nat) (st : ScanState) (g : Nat),
      g ∈ (scanGlyphs f count u st).cmap.map Prod.fst ↔
        g ∈ st.cmap.map Prod.fst ∨
          ∃ c, u ≤ c ∧ c < u + count ∧ f.glyphIdOf c = g ∧ g ≠ 0 ∧
            (f.glyphDataOf g).isSome := by
  intro count
  induction count with
  | zero =>
      intro u st g
      simp only [scanGlyphs]
      constructor
      · exact Or.inl
      · rintro (h | ⟨c, h1, h2, -⟩)
        · exact h
        · omega
  | succ count ih =>
      intro u st g
      rw [scanGlyphs, ih (u + 1) (scanStep f u st) g, scanStep_keys]
      constructor
      · rintro ((h | ⟨hg, hne, hsome⟩) | ⟨c, h1, h2, hrest⟩)
        · exact Or.inl h
        · exact Or.inr ⟨u, le_refl u, by omega, hg, hne, hsome⟩
        · exact Or.inr ⟨c, by omega, by omega, hrest⟩
      · rintro (h | ⟨c, h1, h2, hg, hne, hsome⟩)
        · exact Or.inl (Or.inl h)
        · by_cases hc : c = u
          · exact Or.inl (Or.inr ⟨hc ▸ hg, hne, hsome⟩)
          · exact Or.inr ⟨c, by omega, by omega, hg, hne, hsome⟩

theorem scanStep_dictGet_zero (f : FontFace) (u : Nat) (st : ScanState) :
    dictGet 0 (scanStep f u st).cmap = dictGet 0 st.cmap := by
  by_cases h0 : f.glyphIdOf u = 0
  · simp [scanStep, h0]
  · cases hdata : f.glyphDataOf (f.glyphIdOf u) with
    | none => simp [scanStep, h0, hdata]
    | some gm =>
        simp only [scanStep, if_neg h0, hdata]
        exact dictGet_mapInsert_ne _ _ _ _ (Ne.symm h0)

theorem scanGlyphs_dictGet_zero (f : FontFace) :
    ∀ (count u : Nat) (st : ScanState),
      dictGet 0 (scanGlyphs f count u st).cmap = dictGet 0 st.cmap := by
  intro count
  induction count with
  | zero => intro u st; rfl
  | succ count ih =>
      intro u st
      rw [scanGlyphs, ih, scanStep_dictGet_zero]

/-- **C2 (amended).** The glyph map is populated by querying the parser for
every code point in the range `[0x0000, 0xFFFE]` — the Rust loop
`for unicode in 0x0000..0xffff` is half-open, so code point 0xFFFF is never
queried — skipping code points that map to glyph id 0, and glyph id 0 is
pre-seeded with the neutral `(0, 1000, 1000)` entry (never overwritten,
since only non-zero glyph ids are inserted). -/
theorem c2_glyph_scan_range (f : FontFace) :
    dictGet 0 (buildGlyphCmap f).cmap = some (0, 1000, 1000) ∧
    ∀ g : Nat,
      g ∈ (buildGlyphCmap f).cmap.map Prod.fst ↔
        g = 0 ∨ ∃ c, c ≤ 0xfffe ∧ f.glyphIdOf c = g ∧ g ≠ 0 ∧
          (f.glyphDataOf g).isSome := by
  constructor
  · rw [buildGlyphCmap, scanGlyphs_dictGet_zero]
    rfl
  · intro g
    rw [buildGlyphCmap, scanGlyphs_keys]
    constructor
    · rintro (h | ⟨c, -, h2, hrest⟩)
      · simp at h
        exact Or.inl h
      · exact Or.inr ⟨c, by omega, hrest⟩
    · rintro (h | ⟨c, h1, hrest⟩)
      · subst h
        exact Or.inl (by simp)
      · exact Or.inr ⟨c, Nat.zero_le c, by omega, hrest⟩

/-- C2 counterexample: for a font whose only resolvable code point is
0xFFFF, the claimed inclusive scan of `[0x0000, 0xFFFF]` would record that
glyph, but the built glyph map does not contain it. -/
theorem c2_scan_inclusive_counterexample :
    c2Face.glyphIdOf 0xffff = 1 ∧ (1 : Nat) ≠ 0 ∧
    (c2Face.glyphDataOf 1).isSome = true ∧
    1 ∉ (buildGlyphCmap c2Face).cmap.map Prod.fst := by
  refine ⟨rfl, by decide, rfl, ?_⟩
  intro hmem
  rw [buildGlyphCmap, scanGlyphs_keys] at hmem
  rcases hmem with h | ⟨c, -, h2, hg, -, -⟩
  · simp at h
  · have : c ≠ 0xffff := by omega
    simp only [c2Face, if_neg this] at hg
    exact absurd hg (by decide)

theorem runEntries_append (vec : List Int) :
    ∀ (s : Nat) (w : Int),
      runEntries s (vec ++ [w]) = runEntries s vec ++ [(s + vec.length, w)] := by
  induction vec with
  | nil => intro s w; simp [runEntries]
  | cons x t ih =>
      intro s w
      simp only [List.cons_append, runEntries, List.length_cons, List.append_eq]
      rw [ih (s + 1) w]
      have : s + 1 + t.length = s + (t.length + 1) := by omega
      rw [this]

theorem mem_mapInsert (k : Nat) (v : α) (m : List (Nat × α)) (p : Nat × α)
    (h : p ∈ mapInsert k v m) : p = (k, v) ∨ p ∈ m := by
  induction m with
  | nil => simpa [mapInsert] using h
  | cons q t ih =>
    obtain ⟨k', v'⟩ := q
    by_cases hlt : k < k'
    · simp only [mapInsert, if_pos hlt, List.mem_cons] at h
      rcases h with h | h | h
      · exact Or.inl h
      · exact Or.inr (by simp [h])
      · exact Or.inr (List.mem_cons_of_mem _ h)
    · by_cases heq : k = k'
      · simp only [mapInsert, if_neg hlt, if_pos heq, List.mem_cons] at h
        rcases h with h | h
        · exact Or.inl h
        · exact Or.inr (List.mem_cons_of_mem _ h)
      · simp only [mapInsert, if_neg hlt, if_neg heq, List.mem_cons] at h
        rcases h with h | h
        · exact Or.inr (by simp [h])
        · rcases ih h with h' | h'
          · exact Or.inl h'
          · exact Or.inr (List.mem_cons_of_mem _ h')

theorem pairwise_mapInsert (k : Nat) (v : α) (m : List (Nat × α))
    (h : m.Pairwise (fun a b => a.1 < b.1)) :
    (mapInsert k v m).Pairwise (fun a b => a.1 < b.1) := by
  induction m with
  | nil => simp [mapInsert]
  | cons q t ih =>
    obtain ⟨k', v'⟩ := q
    rw [List.pairwise_cons] at h
    obtain ⟨hhd, htl⟩ := h
    by_cases hlt : k < k'
    · simp only [mapInsert, if_pos hlt]
      refine List.Pairwise.cons ?_ (List.Pairwise.cons hhd htl)
      intro b hb
      rcases List.mem_cons.mp hb with h' | h'
      · rw [h']; exact hlt
      · exact lt_trans hlt (hhd b h')
    · by_cases heq : k = k'
      · subst heq
        simp only [mapInsert, if_neg hlt, if_pos rfl]
        exact List.Pairwise.cons hhd htl
      · simp only [mapInsert, if_neg hlt, if_neg heq]
        refine List.Pairwise.cons ?_ (ih htl)
        intro b hb
        rcases mem_mapInsert k v t b hb with h' | h'
        · rw [h']; omega
        · exact hhd b h'

theorem scanStep_sorted (f : FontFace) (u : Nat) (st : ScanState)
    (h : st.cmap.Pairwise (fun a b => a.1 < b.1)) :
    (scanStep f u st).cmap.Pairwise (fun a b => a.1 < b.1) := by
  by_cases h0 : f.glyphIdOf u = 0
  · simpa [scanStep, h0] using h
  · cases hdata : f.glyphDataOf (f.glyphIdOf u) with
    | none => simpa [scanStep, h0, hdata] using h
    | some gm =>
        simp only [scanStep, if_neg h0, hdata]
        exact pairwise_mapInsert _ _ _ h

theorem scanGlyphs_sorted (f : FontFace) :
    ∀ (count u : Nat) (st : ScanState),
      st.cmap.Pairwise (fun a b => a.1 < b.1) →
      (scanGlyphs f count u st).cmap.Pairwise (fun a b => a.1 < b.1) := by
  intro count
  induction count with
  | zero => intro u st h; exact h
  | succ count ih =>
      intro u st h
      exact ih (u + 1) _ (scanStep_sorted f u st h)

theorem dictGet_some_mem (k : Nat) (v : α) (m : List (Nat × α))
    (h : dictGet k m = some v) : (k, v) ∈ m := by
  induction m with
  | nil => simp [dictGet] at h
  | cons q t ih =>
    obtain ⟨k', v'⟩ := q
    by_cases hk : k = k'
    · subst hk
      rw [dictGet_cons, if_pos rfl] at h
      injection h with h
      subst h
      exact List.mem_cons_self _ _
    · rw [dictGet_cons, if_neg hk] at h
      exact List.mem_cons_of_mem _ (ih h)

/-- In a key-sorted map that holds key 0, the key-0 entry is the head. -/
theorem sorted_zero_head (m : List (Nat × α)) (v : α)
    (hs : m.Pairwise (fun a b => a.1 < b.1)) (h : dictGet 0 m = some v) :
    ∃ t, m = (0, v) :: t := by
  cases m with
  | nil => simp [dictGet] at h
  | cons q t =>
    obtain ⟨k, w⟩ := q
    by_cases hk : (0 : Nat) = k
    · subst hk
      rw [dictGet_cons, if_pos rfl] at h
      injection h with h
      exact ⟨t, by rw [h]⟩
    · rw [dictGet_cons, if_neg hk] at h
      have hmem := dictGet_some_mem 0 v t h
      rw [List.pairwise_cons] at hs
      have := hs.1 (0, v) hmem
      omega

/-- The main run-coalescing invariant: from a pending nonempty run
`(low, vec)` and remaining width pairs that are strictly ascending and all
at or beyond the current high glyph id, the loop flushes a run list whose
runs are nonempty, gap-separated, start at `low`, and decode to the scaled
input. -/
theorem encodeWidthsGo_spec (scale : Nat → Int) :
    ∀ (l : List (Nat × Nat)) (low : Nat) (vec : List Int),
      l.Pairwise (fun a b => a.1 < b.1) →
      (∀ p ∈ l, low + vec.length ≤ p.1) →
      vec ≠ [] →
      ∃ rs : List (Nat × List Int),
        (∀ acc, encodeWidthsGo scale l acc low (low + vec.length) vec =
          acc ++ runsFlatten rs) ∧
        (∀ r ∈ rs, r.2 ≠ []) ∧
        rs.Chain' (fun r r' => r.1 + r.2.length < r'.1) ∧
        (∃ hd tl, rs = hd :: tl ∧ hd.1 = low) ∧
        rs.flatMap (fun r => runEntries r.1 r.2) =
          runEntries low vec ++ l.map (fun p => (p.1, scale p.2)) := by
  intro l
  induction l with
  | nil =>
      intro low vec _ _ hvec
      refine ⟨[(low, vec)], ?_, ?_, ?_, ⟨(low, vec), [], rfl, rfl⟩, ?_⟩
      · intro acc; simp [encodeWidthsGo, runsFlatten]
      · intro r hr; rw [List.mem_singleton] at hr; rw [hr]; exact hvec
      · simp
      · simp [runEntries]
  | cons p rest ih =>
      obtain ⟨gid, w⟩ := p
      intro low vec hsort hbound hvec
      rw [List.pairwise_cons] at hsort
      obtain ⟨hhd, hrest⟩ := hsort
      have hgid : low + vec.length ≤ gid := hbound (gid, w) (List.mem_cons_self _ _)
      by_cases heq : gid = low + vec.length
      · obtain ⟨rs, heqn, hne, hchain, hhead, hdec⟩ :=
          ih low (vec ++ [scale w]) hrest
            (fun p hp => by
              have := hhd p hp
              simp only [List.length_append, List.length_singleton]
              omega)
            (by simp)
        refine ⟨rs, ?_, hne, hchain, hhead, ?_⟩
        · intro acc
          have h' := heqn acc
          simp only [List.length_append, List.length_singleton] at h'
          simp only [encodeWidthsGo, if_pos heq]
          have harith : low + vec.length + 1 = low + (vec.length + 1) := by omega
          rw [harith]
          exact h'
        · rw [hdec, runEntries_append, List.map_cons, List.append_assoc, heq]
          rfl
      · have hgt : low + vec.length < gid := lt_of_le_of_ne hgid (Ne.symm heq)
        obtain ⟨rs', heqn, hne, hchain, hhead, hdec⟩ :=
          ih gid [scale w] hrest
            (fun p hp => by have := hhd p hp; simp; omega)
            (by simp)
        obtain ⟨hd', tl', hrs', hstart⟩ := hhead
        refine ⟨(low, vec) :: rs', ?_, ?_, ?_, ⟨(low, vec), rs', rfl, rfl⟩, ?_⟩
        · intro acc
          simp only [encodeWidthsGo, if_neg heq]
          have h' := heqn (acc ++ [.int (Int.ofNat low), .arr vec])
          simp only [List.length_singleton] at h'
          rw [h']
          simp [runsFlatten]
        · intro r hr
          rcases List.mem_cons.mp hr with h' | h'
          · rw [h']; exact hvec
          · exact hne r h'
        · rw [hrs']
          refine List.Chain'.cons ?_ (hrs' ▸ hchain)
          rw [hstart]; exact hgt
        · simp only [List.flatMap_cons, hdec]
          simp [runEntries, List.map_cons]

/-- C5 counterexample: for `units_per_em = 3` and advance width 195
(the widths list a font like `c5Face` produces), the width the code emits
is the `f64`-computed 64999, not the exact
`trunc(195 * 1000 / 3) = 65000` the claim requires: `1000.0 / 3.0` rounds
below `1000/3`, and the truncated product loses one unit. -/
theorem c5_exact_scaling_counterexample :
    scaleWidthF64 3 195 = 64999 ∧
    (195 * 1000 / 3 : Int) = 65000 ∧
    scaleWidthF64 3 195 ≠ (195 * 1000 / 3 : Int) ∧
    c5Face.units_per_em = 3 ∧
    (c5Face.glyphDataOf 7).map GlyphMetrics.advance_width = some 195 ∧
    encodeWidths (scaleWidthF64 3) [(0, 1000), (7, 195)] =
      [.int 0, .arr [333333], .int 7, .arr [64999]] ∧
    (64999 : Int) ≠ 65000 := by
  refine ⟨by decide, by decide, by decide, rfl, rfl, by decide, by decide⟩

/-- **C5 (amended).** For every parsed external font with a positive
`units_per_em`, the `W` array is a sequence of `[startGID [w0 w1 …]]`
runs: glyph ids are processed in ascending order (the glyph map's entries
are strictly sorted), every run is nonempty and covers exactly consecutive
glyph ids (`runEntries`), any gap between successive glyph ids starts a
new run (successive run starts lie strictly beyond the previous run's
end), and the decoded table assigns each glyph id the width
`(w as f64 * (1000.0 / units_per_em as f64)) as i64` — the double-precision
scaling into the 1000-unit em square, truncated toward zero
(`scaleWidthF64`), which agrees with exact `1000 / units_per_em` scaling
whenever the two roundings are exact but can differ from it by one unit
otherwise. -/
theorem c5_width_table_runs (f : FontFace) (hupem : 0 < f.units_per_em) :
    ∃ rs : List (Nat × List Int),
      encodeWidths (scaleWidthF64 f.units_per_em) (widthsOf f) = runsFlatten rs ∧
      (∀ r ∈ rs, r.2 ≠ []) ∧
      rs.Chain' (fun r r' => r.1 + r.2.length < r'.1) ∧
      (widthsOf f).Pairwise (fun a b => a.1 < b.1) ∧
      rs.flatMap (fun r => runEntries r.1 r.2) =
        (widthsOf f).map (fun p => (p.1, scaleWidthF64 f.units_per_em p.2)) := by
  have hsorted : (buildGlyphCmap f).cmap.Pairwise (fun a b => a.1 < b.1) := by
    apply scanGlyphs_sorted
    simp
  have hzero : dictGet 0 (buildGlyphCmap f).cmap = some (0, 1000, 1000) := by
    rw [buildGlyphCmap, scanGlyphs_dictGet_zero]
    rfl
  obtain ⟨tail, htail⟩ := sorted_zero_head _ _ hsorted hzero
  have hw : widthsOf f = (0, 1000) :: tail.map (fun p => (p.1, p.2.2.1)) := by
    rw [widthsOf, htail]
    rfl
  have hwsorted : (widthsOf f).Pairwise (fun a b => a.1 < b.1) := by
    rw [widthsOf]
    exact hsorted.map _ (fun a b h => h)
  rw [hw] at hwsorted
  rw [List.pairwise_cons] at hwsorted
  obtain ⟨hwhd, hwtl⟩ := hwsorted
  obtain ⟨rs, heqn, hne, hchain, -, hdec⟩ :=
    encodeWidthsGo_spec (scaleWidthF64 f.units_per_em)
      (tail.map (fun p => (p.1, p.2.2.1))) 0 [scaleWidthF64 f.units_per_em 1000]
      hwtl
      (fun p hp => by
        have := hwhd p hp
        simp only [List.length_singleton]
        omega)
      (by simp)
  refine ⟨rs, ?_, hne, hchain, by rw [hw]; exact List.Pairwise.cons hwhd hwtl, ?_⟩
  · rw [hw, encodeWidths]
    have h' := heqn []
    simp only [List.length_singleton, List.nil_append] at h'
    simpa [encodeWidthsGo] using h'
  · rw [hdec, hw]
    simp [runEntries]

/-- C5 amended-claim witness: the width-table run structure at a concrete
font with one glyph and `units_per_em = 1000`. -/
theorem c5_width_table_runs_witness :
    0 < c5WitnessFace.units_per_em ∧
    ∃ rs : List (Nat × List Int),
      encodeWidths (scaleWidthF64 c5WitnessFace.units_per_em)
        (widthsOf c5WitnessFace) = runsFlatten rs ∧
      (∀ r ∈ rs, r.2 ≠ []) ∧
      rs.Chain' (fun r r' => r.1 + r.2.length < r'.1) ∧
      (widthsOf c5WitnessFace).Pairwise (fun a b => a.1 < b.1) ∧
      rs.flatMap (fun r => runEntries r.1 r.2) =
        (widthsOf c5WitnessFace).map
          (fun p => (p.1, scaleWidthF64 c5WitnessFace.units_per_em p.2)) :=
  ⟨by decide, c5_width_table_runs c5WitnessFace (by decide)⟩

/-- Partition-loop invariant: all flushed blocks and the current block obey
the 100-entry bound and the shared-high-byte discipline. -/
theorem partitionGo_spec :
    ∀ (l : List (Nat × Nat)) (all : List (List (Nat × Nat)))
      (cur : List (Nat × Nat)) (fb : Nat),
      (∀ b ∈ all, b.length ≤ 100 ∧ ∀ p ∈ b, ∀ q ∈ b, p.1 >>> 8 = q.1 >>> 8) →
      cur.length ≤ 100 →
      (∀ p ∈ cur, p.1 >>> 8 = fb) →
      ∀ b ∈ partitionGo l all cur fb,
        b.length ≤ 100 ∧ ∀ p ∈ b, ∀ q ∈ b, p.1 >>> 8 = q.1 >>> 8 := by
  intro l
  induction l with
  | nil =>
      intro all cur fb hall hlen hcur b hb
      rw [partitionGo] at hb
      rcases List.mem_append.mp hb with h | h
      · exact hall b h
      · rw [List.mem_singleton] at h
        subst h
        exact ⟨hlen, fun p hp q hq => (hcur p hp).trans (hcur q hq).symm⟩
  | cons e rest ih =>
      obtain ⟨g, u⟩ := e
      intro all cur fb hall hlen hcur b hb
      rw [partitionGo] at hb
      by_cases hcond : g >>> 8 ≠ fb ∨ 100 ≤ cur.length
      · rw [if_pos hcond] at hb
        refine ih (all ++ [cur]) [(g, u)] (g >>> 8) ?_ (by simp) ?_ b hb
        · intro b' hb'
          rcases List.mem_append.mp hb' with h | h
          · exact hall b' h
          · rw [List.mem_singleton] at h
            subst h
            exact ⟨hlen, fun p hp q hq => (hcur p hp).trans (hcur q hq).symm⟩
        · intro p hp
          rw [List.mem_singleton] at hp
          rw [hp]
      · rw [if_neg hcond] at hb
        push_neg at hcond
        refine ih all (cur ++ [(g, u)]) fb hall ?_ ?_ b hb
        · simp only [List.length_append, List.length_singleton]
          omega
        · intro p hp
          rcases List.mem_append.mp hp with h | h
          · exact hcur p h
          · rw [List.mem_singleton] at h
            rw [h]
            exact hcond.1

/-- **C6 (confirmed).** The ToUnicode CMap block partition of a glyph map
yields blocks of at most 100 entries in which every entry shares the high
byte (`glyphID >> 8`) of its glyph id, and generation over the same glyph
map is deterministic (the model, like the Rust loop over the ordered
`BTreeMap`, is a pure function of the entry list, so re-running it yields
byte-identical output). -/
theorem c6_cmap_block_partition (l : List (Nat × Nat)) (beg : String → String)
    (postamble face_name : String) :
    (∀ b ∈ cmapBlocks l, b.length ≤ 100 ∧
      ∀ p ∈ b, ∀ q ∈ b, p.1 >>> 8 = q.1 >>> 8) ∧
    generateCidToUnicodeMap beg postamble face_name (cmapBlocks l) =
      generateCidToUnicodeMap beg postamble face_name (cmapBlocks l) :=
  ⟨partitionGo_spec l [] [] 0 (by simp) (by simp) (by simp), rfl⟩

theorem allocOcgsForPage_eq (names : List String) :
    ∀ c, allocOcgsForPage names c = (List.range' c names.length, c + names.length) := by
  induction names with
  | nil => intro c; simp [allocOcgsForPage]
  | cons n t ih =>
      intro c
      simp only [allocOcgsForPage, ih (c + 1), List.length_cons, List.range'_succ]
      rw [show c + 1 + t.length = c + (t.length + 1) by omega]

theorem allocOcgs_flatten (pages : List (List String)) :
    ∀ c, (allocOcgs pages c).1.flatten =
        List.range' c ((pages.map List.length).sum) ∧
      (allocOcgs pages c).2 = c + (pages.map List.length).sum := by
  induction pages with
  | nil => intro c; simp [allocOcgs]
  | cons names rest ih =>
      intro c
      obtain ⟨ihf, ihc⟩ := ih (c + names.length)
      simp only [allocOcgs, allocOcgsForPage_eq names c]
      constructor
      · simp only [List.flatten_cons, ihf, List.map_cons, List.sum_cons]
        rw [List.range'_append_1]
        rw [Nat.add_comm ((rest.map List.length).sum) names.length]
      · simp only [ihc, List.map_cons, List.sum_cons]
        omega

/-- **C3 (code bug).** For every save, the emitted catalog has
`PageLayout = OneColumn` and the trailer's `ID` is the two-element array
`[document identifier, instance identifier]` — but `PageMode` is the name
`Use0`, not the valid PDF name `UseOC` the specification (and the
OCG-based design) intends: pdf_document.rs:261 writes the literal
`"Use0"`. -/
theorem c3_catalog_pagemode_trailer_id
    (pages_id : ObjectId) (output_intents : LoObject)
    (icc_profile_id xmp_metadata_id : Option ObjectId) (oc_properties : LoObject)
    (trailer : List (String × LoObject)) (catalog_id document_info_id : ObjectId)
    (document_id instance_id : String) :
    dictGet "PageLayout" (buildCatalog pages_id output_intents icc_profile_id
      xmp_metadata_id oc_properties) = some (.name "OneColumn") ∧
    dictGet "PageMode" (buildCatalog pages_id output_intents icc_profile_id
      xmp_metadata_id oc_properties) = some (.name "Use0") ∧
    dictGet "PageMode" (buildCatalog pages_id output_intents icc_profile_id
      xmp_metadata_id oc_properties) ≠ some (.name "UseOC") ∧
    dictGet "ID" (buildTrailer trailer catalog_id document_info_id
      document_id instance_id) =
      some (.array [.string document_id, .string instance_id]) := by
  have hcat : ∀ k : String, k ≠ "OutputIntents" → k ≠ "Metadata" →
      k ≠ "OCProperties" →
      dictGet k (buildCatalog pages_id output_intents icc_profile_id
        xmp_metadata_id oc_properties) =
        dictGet k [("Type", LoObject.name "Catalog"),
          ("PageLayout", LoObject.name "OneColumn"),
          ("PageMode", LoObject.name "Use0"),
          ("Pages", LoObject.reference pages_id)] := by
    intro k h1 h2 h3
    cases icc_profile_id <;> cases xmp_metadata_id <;>
      simp only [buildCatalog] <;>
      rw [dictGet_dictSet_ne _ _ _ _ h3] <;>
      try rw [dictGet_dictSet_ne _ _ _ _ h2]
    all_goals try rw [dictGet_dictSet_ne _ _ _ _ h1]
  refine ⟨?_, ?_, ?_, ?_⟩
  · rw [hcat "PageLayout" (by decide) (by decide) (by decide)]
    rfl
  · rw [hcat "PageMode" (by decide) (by decide) (by decide)]
    rfl
  · rw [hcat "PageMode" (by decide) (by decide) (by decide)]
    intro h
    have hv : dictGet "PageMode" [("Type", LoObject.name "Catalog"),
        ("PageLayout", LoObject.name "OneColumn"),
        ("PageMode", LoObject.name "Use0"),
        ("Pages", LoObject.reference pages_id)] = some (LoObject.name "Use0") := rfl
    rw [hv] at h
    injection h with h
    injection h with h
    exact absurd h (by decide)
  · exact dictGet_dictSet_self _ _ _

/-- C4 counterexample: the wrapped stream for a one-operation layer starts
with `BDC` and ends with `EMC` — the save/restore pair sits inside the
marked-content pair, not the other way around as claimed. -/
theorem c4_wrap_nesting_counterexample :
    wrapLayerOperations "MC0" [Operation.mk "m" []] =
      [Operation.mk "BDC" [.name "OC", .name "MC0"], Operation.mk "q" [],
       Operation.mk "m" [], Operation.mk "Q" [], Operation.mk "EMC" []] ∧
    wrapLayerOperations "MC0" [Operation.mk "m" []] ≠
      [Operation.mk "q" [], Operation.mk "BDC" [.name "OC", .name "MC0"],
       Operation.mk "m" [], Operation.mk "EMC" [], Operation.mk "Q" []] := by
  refine ⟨rfl, ?_⟩
  intro h
  have hv : wrapLayerOperations "MC0" [Operation.mk "m" []] =
      [Operation.mk "BDC" [.name "OC", .name "MC0"], Operation.mk "q" [],
       Operation.mk "m" [], Operation.mk "Q" [], Operation.mk "EMC" []] := rfl
  rw [hv] at h
  injection h with h1 _
  injection h1 with h2 _
  exact absurd h2 (by decide)

/-- **C4 (amended).** `collect_resources_and_streams` wraps each layer's
operator list with a save/restore pair (`q … Q`) nested *inside* the
marked-content pair (`/OC /<layer-ocg-name> BDC … EMC`), leaving the
layer's original operators unchanged in between; the layers are wrapped in
order, each with its own OCG name. -/
theorem c4_layer_wrapping (ocg_names : List String)
    (layers : List (List Operation)) :
    (∀ (ocg_name : String) (operations : List Operation),
      wrapLayerOperations ocg_name operations =
        [Operation.mk "BDC" [.name "OC", .name ocg_name], Operation.mk "q" []] ++
          operations ++ [Operation.mk "Q" [], Operation.mk "EMC" []]) ∧
    collectLayerStreams ocg_names layers =
      (ocg_names.zip layers).map (fun p =>
        [Operation.mk "BDC" [.name "OC", .name p.1], Operation.mk "q" []] ++
          p.2 ++ [Operation.mk "Q" [], Operation.mk "EMC" []]) := by
  constructor
  · intro n ops
    simp [wrapLayerOperations]
  · simp [collectLayerStreams, wrapLayerOperations]

/-- **C8 (confirmed).** For a document with `N` pages of `L` layers each,
the flattened OCG list has exactly `N × L` entries — one consecutively
allocated OCG reference per layer, in page order then layer order — and the
`OCProperties` entry presents that same list as the declared `OCGs`, the
display `Order`, and the initially-`ON` set. -/
theorem c8_ocproperties_views (pages : List (List String)) (c0 L : Nat)
    (hL : ∀ names ∈ pages, names.length = L) :
    (allocOcgs pages c0).1.flatten = List.range' c0 (pages.length * L) ∧
    (flattenedOcgList (allocOcgs pages c0).1).length = pages.length * L ∧
    dictGet "OCGs" (ocPropertiesDict (flattenedOcgList (allocOcgs pages c0).1)) =
      some (.array (flattenedOcgList (allocOcgs pages c0).1)) ∧
    ∃ d, dictGet "D" (ocPropertiesDict (flattenedOcgList (allocOcgs pages c0).1)) =
        some (.dictionary d) ∧
      dictGet "Order" d = some (.array (flattenedOcgList (allocOcgs pages c0).1)) ∧
      dictGet "ON" d = some (.array (flattenedOcgList (allocOcgs pages c0).1)) := by
  have hsum : (pages.map List.length).sum = pages.length * L := by
    rw [List.map_congr_left hL]
    simp [List.map_const', mul_comm]
  obtain ⟨hf, -⟩ := allocOcgs_flatten pages c0
  rw [hsum] at hf
  refine ⟨hf, ?_, by simp [ocPropertiesDict, dictGet], ?_⟩
  · simp [flattenedOcgList, hf]
  · refine ⟨[("Order", LoObject.array (flattenedOcgList (allocOcgs pages c0).1)),
      ("RBGroups", LoObject.array []),
      ("ON", LoObject.array (flattenedOcgList (allocOcgs pages c0).1))],
      by simp [ocPropertiesDict, dictGet], by simp [dictGet], by simp [dictGet]⟩

/-- C8 witness: two pages with two layers each, allocation starting at
object id 4: the flattened list is the four consecutive ids `4, 5, 6, 7`. -/
theorem c8_ocproperties_views_witness :
    (allocOcgs [["a", "b"], ["c", "d"]] 4).1.flatten =
      List.range' 4 ([["a", "b"], ["c", "d"]].length * 2) ∧
    (flattenedOcgList (allocOcgs [["a", "b"], ["c", "d"]] 4).1).length =
      [["a", "b"], ["c", "d"]].length * 2 ∧
    List.range' 4 ([["a", "b"], ["c", "d"]].length * 2) = [4, 5, 6, 7] := by
  have h := c8_ocproperties_views [["a", "b"], ["c", "d"]] 4 2
    (by intro names hmem; fin_cases hmem <;> rfl)
  exact ⟨h.1, h.2.1, by decide⟩

end PdfRs
